import Mathlib

/-!
Verification of the waitgroup package (src/waitgroup.go).

The package provides a tracked wait group: a counting semaphore
(`sync.WaitGroup`, modelled here as a non-negative integer counter that
aborts on underflow) plus a `calls` registry mapping a site-identity key
to the number of units registered under that key and not yet completed.

The Go map `calls map[string]int` is modelled as an association list
`List (String × Int)`; the operations below are line-by-line translations
of `Add`, `Done` and `LogNotDone`.  Go map iteration order is unspecified;
the list order stands for one such order, and no theorem below depends on
which order it is beyond that it enumerates each entry exactly once.

`Wait`'s watcher goroutine (a for/select loop over a one-shot `time.After`
channel and a `done` channel closed after `wg.Wait()` returns) is modelled
as a small-step event system `sysStep`/`runSys` further down.
-/

/-- The abort raised by the underlying `sync.WaitGroup` when its counter
would become negative ("sync: negative WaitGroup counter"). -/
inductive WgPanic
  | negativeCounter
  deriving DecidableEq, Repr

/-- Go `calls[key] += i` on the association-list model of the map: update
the entry for `key` in place when present, otherwise append a new entry
(note that this appends an entry even when `i = 0`, exactly as the Go
statement creates a zero-valued map entry for an absent key). -/
def addToKey : List (String × Int) → String → Int → List (String × Int)
  | [], k, i => [(k, i)]
  | (q, v) :: rest, k, i =>
      if q = k then (q, v + i) :: rest else (q, v) :: addToKey rest k i

/-- Go map lookup `calls[key]` returning `none` when absent. -/
def lookupKey : List (String × Int) → String → Option Int
  | [], _ => none
  | (q, v) :: rest, k => if q = k then some v else lookupKey rest k

/-- The registry part of `Done` (src/waitgroup.go lines 110-115): if `key`
is present, decrement its value and delete the entry when the decremented
value is `≤ 0`; if absent, leave the list untouched. -/
def decOrDelete : List (String × Int) → String → List (String × Int)
  | [], _ => []
  | (q, v) :: rest, k =>
      if q = k then (if v - 1 ≤ 0 then rest else (q, v - 1) :: rest)
      else (q, v) :: decOrDelete rest k

/-- Number of entries of the association list carrying key `k`. -/
def countKey (l : List (String × Int)) (k : String) : Nat :=
  (l.filter (fun p => decide (p.1 = k))).length

/-- The WaitGroup state (src/waitgroup.go lines 77-81): `wg` is the
counter of the embedded `sync.WaitGroup`, `calls` the site registry. -/
structure WaitGroup where
  wg : Int
  calls : List (String × Int)
  deriving DecidableEq, Repr

/-- `New()` (src/waitgroup.go lines 84-90): zero counter, empty registry. -/
def New : WaitGroup := ⟨0, []⟩

/-- `Add` (src/waitgroup.go lines 94-103).  The Go code derives `key` from
`runtime.Caller`; it is taken here as an explicit argument (the spec makes
the identity an explicit string parameter).  `w.wg.Add(i)` is
`sync.WaitGroup.Add`, which panics when the counter would become negative;
otherwise the counter grows by `i` and `calls[key] += i` runs. -/
def WaitGroup.Add (w : WaitGroup) (key : String) (i : Int) :
    Except WgPanic WaitGroup :=
  if w.wg + i < 0 then Except.error WgPanic.negativeCounter
  else Except.ok ⟨w.wg + i, addToKey w.calls key i⟩

/-- `Done` (src/waitgroup.go lines 106-116).  `w.wg.Done()` runs first and
panics when the counter would become negative (leaving the registry
untouched); otherwise the counter drops by 1 and the registry entry for
`key`, when present, is decremented and deleted at zero. -/
def WaitGroup.Done (w : WaitGroup) (key : String) :
    Except WgPanic WaitGroup :=
  if w.wg - 1 < 0 then Except.error WgPanic.negativeCounter
  else Except.ok ⟨w.wg - 1, decOrDelete w.calls key⟩

/-- The header line written by `LogNotDone`. -/
def logHeader : String := "\nWaitGroup currently waiting on:\n"

/-- The per-entry line written by `LogNotDone`: `" %s (%d outstanding)\n"`. -/
def fmtLine (key : String) (n : Int) : String :=
  " " ++ key ++ " (" ++ toString n ++ " outstanding)\n"

/-- `LogNotDone` (src/waitgroup.go lines 140-150): under a read lock, emit
nothing when the registry is empty, otherwise the header line followed by
one line per registry entry.  The returned `WaitGroup` is the state as the
method leaves it (the body only reads, which the theorem below makes
explicit). -/
def WaitGroup.LogNotDone (w : WaitGroup) : List String × WaitGroup :=
  if w.calls.length = 0 then ([], w)
  else w.calls.foldl (fun acc p => (acc.1 ++ [fmtLine p.1 p.2], acc.2))
    ([logHeader], w)

/-- The text a call to `LogNotDone` writes to the sink. -/
def logLines (w : WaitGroup) : List String := (WaitGroup.LogNotDone w).1

/-- A single mutating operation on a WaitGroup, for reachability. -/
inductive WgOp
  | add (key : String) (i : Int)
  | done (key : String)
  deriving DecidableEq, Repr

/-- Apply one operation. -/
def applyOp (s : WaitGroup) : WgOp → Except WgPanic WaitGroup
  | WgOp.add k i => WaitGroup.Add s k i
  | WgOp.done k => WaitGroup.Done s k

/-- Run a sequence of operations; a panic aborts the run. -/
def runOps : WaitGroup → List WgOp → Except WgPanic WaitGroup
  | s, [] => Except.ok s
  | s, op :: ops =>
      match applyOp s op with
      | Except.error e => Except.error e
      | Except.ok s2 => runOps s2 ops

/-- `true` when the operation is not an `add` with a non-positive count. -/
def posCountB : WgOp → Bool
  | WgOp.add _ i => decide (1 ≤ i)
  | WgOp.done _ => true

/-- Every entry of the registry list carries a strictly positive count. -/
def allPos (l : List (String × Int)) : Prop := ∀ p ∈ l, 0 < p.2

theorem applyOp_wg_nonneg (s s1 : WaitGroup) (op : WgOp)
    (h : applyOp s op = Except.ok s1) : 0 ≤ s1.wg := by
  cases op with
  | add k i =>
      simp only [applyOp, WaitGroup.Add] at h
      split at h
      · exact absurd h (by simp)
      · next hc =>
          injection h with h2
          rw [← h2]
          simp only []
          omega
  | done k =>
      simp only [applyOp, WaitGroup.Done] at h
      split at h
      · exact absurd h (by simp)
      · next hc =>
          injection h with h2
          rw [← h2]
          simp only []
          omega

theorem runOps_wg_nonneg (ops : List WgOp) :
    ∀ s0 s : WaitGroup, 0 ≤ s0.wg → runOps s0 ops = Except.ok s → 0 ≤ s.wg := by
  induction ops with
  | nil =>
      intro s0 s h0 hrun
      simp only [runOps] at hrun
      injection hrun with h2
      rw [← h2]; exact h0
  | cons op rest ih =>
      intro s0 s h0 hrun
      simp only [runOps] at hrun
      cases hop : applyOp s0 op with
      | error e => rw [hop] at hrun; exact absurd hrun (by simp)
      | ok s1 =>
          rw [hop] at hrun
          exact ih s1 s (applyOp_wg_nonneg s0 s1 op hop) hrun

/-- C1: in every state reachable from a fresh WaitGroup without aborting,
the counter `pendingTotal` is non-negative, and a further `Done` in a state
whose counter is zero (i.e. one more `Done` than the net sum of prior `Add`
counts) aborts with the negative-counter panic instead of clamping. -/
theorem done_underflow_fatal (ops : List WgOp) (s : WaitGroup)
    (hrun : runOps New ops = Except.ok s) :
    0 ≤ s.wg ∧
    ∀ key, s.wg = 0 →
      WaitGroup.Done s key = Except.error WgPanic.negativeCounter := by
  constructor
  · exact runOps_wg_nonneg ops New s (by decide) hrun
  · intro key h0
    simp [WaitGroup.Done, h0]

theorem done_underflow_fatal_w :
    0 ≤ New.wg ∧
    WaitGroup.Done New "A" = Except.error WgPanic.negativeCounter := by
  have h := done_underflow_fatal [] New rfl
  exact ⟨h.1, h.2 "A" rfl⟩

theorem lookupKey_none_decOrDelete (l : List (String × Int)) (k : String)
    (h : lookupKey l k = none) : decOrDelete l k = l := by
  induction l with
  | nil => rfl
  | cons p rest ih =>
      obtain ⟨q, v⟩ := p
      simp only [lookupKey] at h
      simp only [decOrDelete]
      by_cases hq : q = k
      · rw [if_pos hq] at h; exact absurd h (by simp)
      · rw [if_neg hq] at h
        rw [if_neg hq, ih h]

/-- C2: `Done` with a key absent from the registry leaves the registry
unchanged and still decrements the counter by 1 (stated for states whose
counter is positive; at counter zero `Done` aborts, which is C1). -/
theorem done_unknown_key (s : WaitGroup) (key : String)
    (habs : lookupKey s.calls key = none) (hpos : 0 < s.wg) :
    WaitGroup.Done s key = Except.ok ⟨s.wg - 1, s.calls⟩ := by
  unfold WaitGroup.Done
  rw [if_neg (by omega), lookupKey_none_decOrDelete s.calls key habs]

theorem done_unknown_key_w :
    WaitGroup.Done ⟨1, []⟩ "A" = Except.ok ⟨1 - 1, []⟩ :=
  done_unknown_key ⟨1, []⟩ "A" rfl (by decide)

theorem addToKey_allPos (l : List (String × Int)) (k : String) (i : Int)
    (hl : allPos l) (hi : 1 ≤ i) : allPos (addToKey l k i) := by
  induction l with
  | nil =>
      intro p hp
      simp only [addToKey, List.mem_singleton] at hp
      rw [hp]; exact by omega
  | cons q rest ih =>
      obtain ⟨qk, qv⟩ := q
      have hqv : 0 < qv := hl (qk, qv) (by simp)
      have hrest : allPos rest := fun p hp => hl p (List.mem_cons_of_mem _ hp)
      intro p hp
      simp only [addToKey] at hp
      by_cases hq : qk = k
      · rw [if_pos hq] at hp
        rcases List.mem_cons.mp hp with h1 | h2
        · rw [h1]; simp only []; omega
        · exact hrest p h2
      · rw [if_neg hq] at hp
        rcases List.mem_cons.mp hp with h1 | h2
        · rw [h1]; exact hqv
        · exact ih hrest p h2

theorem decOrDelete_allPos (l : List (String × Int)) (k : String)
    (hl : allPos l) : allPos (decOrDelete l k) := by
  induction l with
  | nil => intro p hp; simp [decOrDelete] at hp
  | cons q rest ih =>
      obtain ⟨qk, qv⟩ := q
      have hqv : 0 < qv := hl (qk, qv) (by simp)
      have hrest : allPos rest := fun p hp => hl p (List.mem_cons_of_mem _ hp)
      intro p hp
      simp only [decOrDelete] at hp
      by_cases hq : qk = k
      · rw [if_pos hq] at hp
        by_cases hv : qv - 1 ≤ 0
        · rw [if_pos hv] at hp; exact hrest p hp
        · rw [if_neg hv] at hp
          rcases List.mem_cons.mp hp with h1 | h2
          · rw [h1]; simp only []; omega
          · exact hrest p h2
      · rw [if_neg hq] at hp
        rcases List.mem_cons.mp hp with h1 | h2
        · rw [h1]; exact hqv
        · exact ih hrest p h2

theorem lookupKey_mem (l : List (String × Int)) (k : String) (v : Int)
    (h : lookupKey l k = some v) : (k, v) ∈ l := by
  induction l with
  | nil => exact absurd h (by simp [lookupKey])
  | cons q rest ih =>
      obtain ⟨qk, qv⟩ := q
      simp only [lookupKey] at h
      by_cases hq : qk = k
      · rw [if_pos hq] at h
        injection h with h2
        rw [← hq, ← h2]; simp
      · rw [if_neg hq] at h
        exact List.mem_cons_of_mem _ (ih h)

theorem applyOp_allPos (s s1 : WaitGroup) (op : WgOp)
    (hop : posCountB op = true) (hs : allPos s.calls)
    (h : applyOp s op = Except.ok s1) : allPos s1.calls := by
  cases op with
  | add k i =>
      simp only [posCountB, decide_eq_true_eq] at hop
      simp only [applyOp, WaitGroup.Add] at h
      split at h
      · exact absurd h (by simp)
      · injection h with h2
        rw [← h2]
        exact addToKey_allPos s.calls k i hs hop
  | done k =>
      simp only [applyOp, WaitGroup.Done] at h
      split at h
      · exact absurd h (by simp)
      · injection h with h2
        rw [← h2]
        exact decOrDelete_allPos s.calls k hs

theorem runOps_allPos (ops : List WgOp) :
    ∀ s0 s : WaitGroup, allPos s0.calls →
      (∀ op ∈ ops, posCountB op = true) →
      runOps s0 ops = Except.ok s → allPos s.calls := by
  induction ops with
  | nil =>
      intro s0 s h0 _ hrun
      simp only [runOps] at hrun
      injection hrun with h2
      rw [← h2]; exact h0
  | cons op rest ih =>
      intro s0 s h0 hpos hrun
      simp only [runOps] at hrun
      cases hop : applyOp s0 op with
      | error e => rw [hop] at hrun; exact absurd hrun (by simp)
      | ok s1 =>
          rw [hop] at hrun
          exact ih s1 s
            (applyOp_allPos s0 s1 op (hpos op (by simp)) h0 hop)
            (fun o ho => hpos o (List.mem_cons_of_mem _ ho)) hrun

/-- C3 (amended): in every state reachable from a fresh WaitGroup by `Add`
calls with strictly positive counts and arbitrary `Done` calls, every key
present in the registry has a strictly positive count. -/
theorem registry_counts_positive (ops : List WgOp) (s : WaitGroup)
    (hpos : ∀ op ∈ ops, posCountB op = true)
    (hrun : runOps New ops = Except.ok s) :
    ∀ k v, lookupKey s.calls k = some v → 0 < v :=
  fun k v h =>
    runOps_allPos ops New s (by intro p hp; simp [New] at hp) hpos hrun
      (k, v) (lookupKey_mem s.calls k v h)

/-- C3 counterexample: the claim as stated (over arbitrary `Add`/`Done`
sequences) is false: `Add` with count 0 from the fresh state puts the key
in the registry with outstanding count 0, which is not strictly positive. -/
theorem registry_counts_positive_cex :
    ¬ (∀ (ops : List WgOp) (s : WaitGroup), runOps New ops = Except.ok s →
        ∀ k v, lookupKey s.calls k = some v → 0 < v) := by
  intro h
  have h0 := h [WgOp.add "A" 0] ⟨0, [("A", 0)]⟩ rfl "A" 0 rfl
  omega

theorem registry_counts_positive_w :
    runOps New [WgOp.add "A" 2, WgOp.done "A"] = Except.ok ⟨1, [("A", 1)]⟩ ∧
    (0 : Int) < 1 := by
  constructor
  · rfl
  · exact registry_counts_positive [WgOp.add "A" 2, WgOp.done "A"]
      ⟨1, [("A", 1)]⟩ (by decide) rfl "A" 1 rfl

theorem addToKey_zero (l : List (String × Int)) (k : String) :
    addToKey l k 0 =
      if (lookupKey l k).isSome then l else l ++ [(k, 0)] := by
  induction l with
  | nil => simp [addToKey, lookupKey]
  | cons q rest ih =>
      obtain ⟨qk, qv⟩ := q
      by_cases hq : qk = k
      · subst hq; simp [addToKey, lookupKey]
      · simp only [addToKey, lookupKey, if_neg hq, ih]
        by_cases hs : (lookupKey rest k).isSome
        · simp [hs]
        · simp [hs]

/-- C4 (amended): `Add` with count 0 leaves the counter unchanged and every
existing registry count unchanged, but when the key is absent it inserts
the key with outstanding count 0 (an observable effect a later dump shows);
it is a genuine no-op only when the key is already present. -/
theorem add_zero_effect (s : WaitGroup) (key : String) (h : 0 ≤ s.wg) :
    WaitGroup.Add s key 0 =
      Except.ok ⟨s.wg,
        if (lookupKey s.calls key).isSome then s.calls
        else s.calls ++ [(key, 0)]⟩ := by
  unfold WaitGroup.Add
  rw [if_neg (by omega), addToKey_zero]
  norm_num

/-- C4 counterexample: `Add(0)` at a fresh WaitGroup is not free of
observable effect: it inserts the key into the registry (count 0). -/
theorem add_zero_effect_cex :
    ¬ (∀ (s : WaitGroup) (key : String) (s2 : WaitGroup),
        WaitGroup.Add s key 0 = Except.ok s2 → s2.calls = s.calls) := by
  intro h
  have h0 := h New "A" ⟨0, [("A", 0)]⟩ rfl
  simp [New] at h0

theorem add_zero_effect_w :
    WaitGroup.Add New "A" 0 =
      Except.ok ⟨New.wg,
        if (lookupKey New.calls "A").isSome then New.calls
        else New.calls ++ [("A", 0)]⟩ :=
  add_zero_effect New "A" (by decide)

theorem addToKey_absent (l : List (String × Int)) (k : String) (i : Int)
    (h : lookupKey l k = none) : addToKey l k i = l ++ [(k, i)] := by
  induction l with
  | nil => rfl
  | cons q rest ih =>
      obtain ⟨qk, qv⟩ := q
      simp only [lookupKey] at h
      by_cases hq : qk = k
      · rw [if_pos hq] at h; exact absurd h (by simp)
      · rw [if_neg hq] at h
        simp only [addToKey, if_neg hq, ih h, List.cons_append]

theorem addToKey_append (l : List (String × Int)) (k : String) (v i : Int)
    (h : lookupKey l k = none) :
    addToKey (l ++ [(k, v)]) k i = l ++ [(k, v + i)] := by
  induction l with
  | nil => simp [addToKey]
  | cons q rest ih =>
      obtain ⟨qk, qv⟩ := q
      simp only [lookupKey] at h
      by_cases hq : qk = k
      · rw [if_pos hq] at h; exact absurd h (by simp)
      · rw [if_neg hq] at h
        simp only [List.cons_append, addToKey, List.append_eq, if_neg hq, ih h]

theorem lookupKey_append (l : List (String × Int)) (k : String) (v : Int)
    (h : lookupKey l k = none) :
    lookupKey (l ++ [(k, v)]) k = some v := by
  induction l with
  | nil => simp [lookupKey]
  | cons q rest ih =>
      obtain ⟨qk, qv⟩ := q
      simp only [lookupKey] at h
      by_cases hq : qk = k
      · rw [if_pos hq] at h; exact absurd h (by simp)
      · rw [if_neg hq] at h
        simp only [List.cons_append, lookupKey, List.append_eq, if_neg hq, ih h]

theorem countKey_none (l : List (String × Int)) (k : String)
    (h : lookupKey l k = none) : countKey l k = 0 := by
  induction l with
  | nil => rfl
  | cons q rest ih =>
      obtain ⟨qk, qv⟩ := q
      simp only [lookupKey] at h
      by_cases hq : qk = k
      · rw [if_pos hq] at h; exact absurd h (by simp)
      · rw [if_neg hq] at h
        simp only [countKey, List.filter] at ih ⊢
        simp [hq, ih h]

theorem countKey_append (l : List (String × Int)) (k : String) (v : Int) :
    countKey (l ++ [(k, v)]) k = countKey l k + 1 := by
  simp [countKey, List.filter_append]

theorem decOrDelete_append (l : List (String × Int)) (k : String) (v : Int)
    (h : lookupKey l k = none) (hv : ¬ v - 1 ≤ 0) :
    decOrDelete (l ++ [(k, v)]) k = l ++ [(k, v - 1)] := by
  induction l with
  | nil => simp [decOrDelete, hv]
  | cons q rest ih =>
      obtain ⟨qk, qv⟩ := q
      simp only [lookupKey] at h
      by_cases hq : qk = k
      · rw [if_pos hq] at h; exact absurd h (by simp)
      · rw [if_neg hq] at h
        simp only [List.cons_append, decOrDelete, List.append_eq, if_neg hq, ih h]

/-- C5: two `Add` calls for the same (previously absent) identity key, with
counts `n1` and `n2`, aggregate into a single registry entry whose
outstanding count is `n1 + n2`; one subsequent `Done` with that key then
decrements that entry by exactly 1. -/
theorem same_key_aggregates (s : WaitGroup) (key : String) (n1 n2 : Int)
    (hwg : 0 ≤ s.wg) (habs : lookupKey s.calls key = none)
    (h1 : 1 ≤ n1) (h2 : 1 ≤ n2) :
    ∃ s1 s2 s3 : WaitGroup,
      WaitGroup.Add s key n1 = Except.ok s1 ∧
      WaitGroup.Add s1 key n2 = Except.ok s2 ∧
      lookupKey s2.calls key = some (n1 + n2) ∧
      countKey s2.calls key = 1 ∧
      WaitGroup.Done s2 key = Except.ok s3 ∧
      lookupKey s3.calls key = some (n1 + n2 - 1) := by
  refine ⟨⟨s.wg + n1, s.calls ++ [(key, n1)]⟩,
    ⟨s.wg + n1 + n2, s.calls ++ [(key, n1 + n2)]⟩,
    ⟨s.wg + n1 + n2 - 1, s.calls ++ [(key, n1 + n2 - 1)]⟩,
    ?_, ?_, ?_, ?_, ?_, ?_⟩
  · unfold WaitGroup.Add
    rw [if_neg (by omega), addToKey_absent s.calls key n1 habs]
  · unfold WaitGroup.Add
    simp only []
    rw [if_neg (by omega), addToKey_append s.calls key n1 n2 habs]
  · exact lookupKey_append s.calls key (n1 + n2) habs
  · simp only []
    rw [countKey_append, countKey_none s.calls key habs]
  · unfold WaitGroup.Done
    simp only []
    rw [if_neg (by omega), decOrDelete_append s.calls key (n1 + n2) habs (by omega)]
  · exact lookupKey_append s.calls key (n1 + n2 - 1) habs

theorem same_key_aggregates_w :
    ∃ s1 s2 s3 : WaitGroup,
      WaitGroup.Add New "A" 1 = Except.ok s1 ∧
      WaitGroup.Add s1 "A" 1 = Except.ok s2 ∧
      lookupKey s2.calls "A" = some (1 + 1) ∧
      countKey s2.calls "A" = 1 ∧
      WaitGroup.Done s2 "A" = Except.ok s3 ∧
      lookupKey s3.calls "A" = some (1 + 1 - 1) :=
  same_key_aggregates New "A" 1 1 (by decide) rfl (by decide) (by decide)

theorem logNotDone_foldl (l : List (String × Int)) :
    ∀ (acc : List String) (w : WaitGroup),
      List.foldl (fun acc2 p => (acc2.1 ++ [fmtLine p.1 p.2], acc2.2)) (acc, w) l
        = (acc ++ l.map (fun p => fmtLine p.1 p.2), w) := by
  induction l with
  | nil => intro acc w; simp
  | cons p rest ih =>
      intro acc w
      simp only [List.foldl_cons, List.map_cons, ih, List.append_assoc,
        List.singleton_append]

/-- C10: `LogNotDone` is read-only: the WaitGroup state it leaves behind is
exactly the state it was given — the counter and every registry entry are
unchanged by a dump. -/
theorem logNotDone_pure (w : WaitGroup) : (WaitGroup.LogNotDone w).2 = w := by
  unfold WaitGroup.LogNotDone
  split
  · rfl
  · rw [logNotDone_foldl]

theorem logLines_eq (w : WaitGroup) (hne : w.calls ≠ []) :
    logLines w = logHeader :: w.calls.map (fun p => fmtLine p.1 p.2) := by
  unfold logLines WaitGroup.LogNotDone
  rw [if_neg (by simpa using hne), logNotDone_foldl]
  simp

/-- C7: when the registry is empty — in particular on a freshly constructed
WaitGroup — `LogNotDone` writes nothing at all, not even the header line. -/
theorem dump_empty_silent (w : WaitGroup) (h : w.calls = []) :
    logLines w = [] := by
  unfold logLines WaitGroup.LogNotDone
  rw [if_pos (by simp [h])]

theorem dump_empty_silent_w : logLines New = [] :=
  dump_empty_silent New rfl

/-- C6 (amended): in every state reachable using only positive `Add` counts
whose registry is non-empty, the dump is the header line followed by
exactly one line per registry entry (its identity and its count), and every
dumped entry has a strictly positive outstanding count — identities whose
count reached zero were deleted by `Done` and are absent, so exactly the
positive-count identities are dumped. -/
theorem dump_matches_registry (ops : List WgOp) (s : WaitGroup)
    (hpos : ∀ op ∈ ops, posCountB op = true)
    (hrun : runOps New ops = Except.ok s) (hne : s.calls ≠ []) :
    logLines s = logHeader :: s.calls.map (fun p => fmtLine p.1 p.2) ∧
    ∀ p ∈ s.calls, 0 < p.2 := by
  constructor
  · exact logLines_eq s hne
  · exact runOps_allPos ops New s (by intro p hp; simp [New] at hp) hpos hrun

/-- C6 counterexample: over arbitrary `Add` counts the claim fails: after
`Add` with count 0 the registry is non-empty and the dump contains a line
for an identity whose outstanding count is 0, not strictly positive. -/
theorem dump_matches_registry_cex :
    logLines ⟨0, [("A", 0)]⟩ = [logHeader, fmtLine "A" 0] ∧
    ¬ (∀ (ops : List WgOp) (s : WaitGroup), runOps New ops = Except.ok s →
        s.calls ≠ [] → ∀ p ∈ s.calls, 0 < p.2) := by
  constructor
  · rfl
  · intro h
    have h0 := h [WgOp.add "A" 0] ⟨0, [("A", 0)]⟩ rfl (by simp) ("A", 0) (by simp)
    omega

theorem dump_matches_registry_w :
    logLines ⟨1, [("A", 1)]⟩ = [logHeader, fmtLine "A" 1] := by
  have h := dump_matches_registry [WgOp.add "A" 1] ⟨1, [("A", 1)]⟩
    (by decide) rfl (by simp)
  simpa using h.1

/-- Events of one `Wait(duration)` call (src/waitgroup.go lines 121-136),
interleaved with concurrent `Add`/`Done` calls.  `timerFire` is the
one-shot `time.After(wait)` channel delivering its single value to the
watcher's select; `wgZero` is `w.wg.Wait()` observing a zero counter, after
which `Wait` closes `done` and returns; `watcherDone` is the watcher's
select taking the closed `done` channel and the goroutine returning. -/
inductive SysOp
  | add (key : String) (i : Int)
  | done (key : String)
  | timerFire
  | wgZero
  | watcherDone
  deriving DecidableEq, Repr

/-- State of one `Wait` call: the WaitGroup, whether `Wait` has returned
(`done` closed), whether the one-shot timer channel has already delivered,
whether the watcher goroutine has returned, and how many times the watcher
has invoked `LogNotDone`. -/
structure WaitSys where
  ws : WaitGroup
  returned : Bool
  timerSpent : Bool
  watcherStopped : Bool
  dumps : Nat
  deriving DecidableEq, Repr

/-- The state at the start of a `Wait` call. -/
def initSys (w : WaitGroup) : WaitSys := ⟨w, false, false, false, 0⟩

/-- One event step of the `Wait` system.  `timerFire` triggers a dump only
if the watcher is still running and the one-shot channel has not already
delivered — the code never re-arms the timer (`limit := time.After(wait)`
is created once, outside the for loop).  `wgZero` can only happen while
the counter is zero; `watcherDone` only once `done` has been closed. -/
def sysStep (s : WaitSys) : SysOp → Except WgPanic WaitSys
  | SysOp.add k i =>
      match WaitGroup.Add s.ws k i with
      | Except.error e => Except.error e
      | Except.ok w2 =>
          Except.ok ⟨w2, s.returned, s.timerSpent, s.watcherStopped, s.dumps⟩
  | SysOp.done k =>
      match WaitGroup.Done s.ws k with
      | Except.error e => Except.error e
      | Except.ok w2 =>
          Except.ok ⟨w2, s.returned, s.timerSpent, s.watcherStopped, s.dumps⟩
  | SysOp.timerFire =>
      if s.watcherStopped || s.timerSpent then Except.ok s
      else Except.ok ⟨s.ws, s.returned, true, s.watcherStopped, s.dumps + 1⟩
  | SysOp.wgZero =>
      if s.returned = false ∧ s.ws.wg = 0 then
        Except.ok ⟨s.ws, true, s.timerSpent, s.watcherStopped, s.dumps⟩
      else Except.ok s
  | SysOp.watcherDone =>
      if s.returned && !s.watcherStopped then
        Except.ok ⟨s.ws, s.returned, s.timerSpent, true, s.dumps⟩
      else Except.ok s

/-- Run a sequence of events; a counter underflow aborts the run. -/
def runSys : WaitSys → List SysOp → Except WgPanic WaitSys
  | s, [] => Except.ok s
  | s, op :: ops =>
      match sysStep s op with
      | Except.error e => Except.error e
      | Except.ok s2 => runSys s2 ops

theorem runSys_append (l1 l2 : List SysOp) :
    ∀ s : WaitSys, runSys s (l1 ++ l2) =
      match runSys s l1 with
      | Except.error e => Except.error e
      | Except.ok s1 => runSys s1 l2 := by
  induction l1 with
  | nil => intro s; rfl
  | cons op rest ih =>
      intro s
      simp only [List.cons_append, runSys]
      cases sysStep s op with
      | error e => rfl
      | ok s2 => exact ih s2

theorem sysStep_dumpsInv (u u2 : WaitSys) (op : SysOp)
    (hinv : u.dumps = if u.timerSpent then 1 else 0)
    (h : sysStep u op = Except.ok u2) :
    u2.dumps = if u2.timerSpent then 1 else 0 := by
  cases op with
  | add k i =>
      simp only [sysStep] at h
      cases hw : WaitGroup.Add u.ws k i with
      | error e => rw [hw] at h; exact absurd h (by simp)
      | ok w2 => rw [hw] at h; injection h with h2; rw [← h2]; exact hinv
  | done k =>
      simp only [sysStep] at h
      cases hw : WaitGroup.Done u.ws k with
      | error e => rw [hw] at h; exact absurd h (by simp)
      | ok w2 => rw [hw] at h; injection h with h2; rw [← h2]; exact hinv
  | timerFire =>
      simp only [sysStep] at h
      split at h
      · injection h with h2; rw [← h2]; exact hinv
      · next hc =>
          injection h with h2; rw [← h2]
          have hts : u.timerSpent = false := by
            revert hc; cases u.timerSpent <;> simp
          rw [hts] at hinv
          simp at hinv ⊢
          omega
  | wgZero =>
      simp only [sysStep] at h
      split at h <;> (injection h with h2; rw [← h2]; exact hinv)
  | watcherDone =>
      simp only [sysStep] at h
      split at h <;> (injection h with h2; rw [← h2]; exact hinv)

theorem runSys_dumpsInv (ops : List SysOp) :
    ∀ u s : WaitSys, u.dumps = (if u.timerSpent then 1 else 0) →
      runSys u ops = Except.ok s →
      s.dumps = if s.timerSpent then 1 else 0 := by
  induction ops with
  | nil =>
      intro u s hinv hrun
      simp only [runSys] at hrun
      injection hrun with h2; rw [← h2]; exact hinv
  | cons op rest ih =>
      intro u s hinv hrun
      simp only [runSys] at hrun
      cases hop : sysStep u op with
      | error e => rw [hop] at hrun; exact absurd hrun (by simp)
      | ok u2 =>
          rw [hop] at hrun
          exact ih u2 s (sysStep_dumpsInv u u2 op hinv hop) hrun

theorem sysStep_spent_mono (u u2 : WaitSys) (op : SysOp)
    (hsp : u.timerSpent = true) (h : sysStep u op = Except.ok u2) :
    u2.timerSpent = true := by
  cases op with
  | add k i =>
      simp only [sysStep] at h
      cases hw : WaitGroup.Add u.ws k i with
      | error e => rw [hw] at h; exact absurd h (by simp)
      | ok w2 => rw [hw] at h; injection h with h2; rw [← h2]; exact hsp
  | done k =>
      simp only [sysStep] at h
      cases hw : WaitGroup.Done u.ws k with
      | error e => rw [hw] at h; exact absurd h (by simp)
      | ok w2 => rw [hw] at h; injection h with h2; rw [← h2]; exact hsp
  | timerFire =>
      simp only [sysStep] at h
      split at h
      · injection h with h2; rw [← h2]; exact hsp
      · injection h with h2; rw [← h2]
  | wgZero =>
      simp only [sysStep] at h
      split at h <;> (injection h with h2; rw [← h2]; exact hsp)
  | watcherDone =>
      simp only [sysStep] at h
      split at h <;> (injection h with h2; rw [← h2]; exact hsp)

theorem runSys_spent_mono (ops : List SysOp) :
    ∀ u s : WaitSys, u.timerSpent = true → runSys u ops = Except.ok s →
      s.timerSpent = true := by
  induction ops with
  | nil =>
      intro u s hsp hrun
      simp only [runSys] at hrun
      injection hrun with h2; rw [← h2]; exact hsp
  | cons op rest ih =>
      intro u s hsp hrun
      simp only [runSys] at hrun
      cases hop : sysStep u op with
      | error e => rw [hop] at hrun; exact absurd hrun (by simp)
      | ok u2 =>
          rw [hop] at hrun
          exact ih u2 s (sysStep_spent_mono u u2 op hsp hop) hrun

theorem sysStep_no_wgZero_frame (u u2 : WaitSys) (op : SysOp)
    (hop : op ≠ SysOp.wgZero) (hu : u.returned = false)
    (h : sysStep u op = Except.ok u2) :
    u2.returned = false ∧ u2.watcherStopped = u.watcherStopped := by
  cases op with
  | add k i =>
      simp only [sysStep] at h
      cases hw : WaitGroup.Add u.ws k i with
      | error e => rw [hw] at h; exact absurd h (by simp)
      | ok w2 => rw [hw] at h; injection h with h2; rw [← h2]; exact ⟨hu, rfl⟩
  | done k =>
      simp only [sysStep] at h
      cases hw : WaitGroup.Done u.ws k with
      | error e => rw [hw] at h; exact absurd h (by simp)
      | ok w2 => rw [hw] at h; injection h with h2; rw [← h2]; exact ⟨hu, rfl⟩
  | timerFire =>
      simp only [sysStep] at h
      split at h <;> (injection h with h2; rw [← h2]; exact ⟨hu, rfl⟩)
  | wgZero => exact absurd rfl hop
  | watcherDone =>
      simp only [sysStep] at h
      split at h
      · next hc => rw [hu] at hc; exact absurd hc (by simp)
      · injection h with h2; rw [← h2]; exact ⟨hu, rfl⟩

theorem runSys_no_wgZero_frame (ops : List SysOp) :
    ∀ u s : WaitSys, (∀ op ∈ ops, op ≠ SysOp.wgZero) → u.returned = false →
      runSys u ops = Except.ok s →
      s.returned = false ∧ s.watcherStopped = u.watcherStopped := by
  induction ops with
  | nil =>
      intro u s _ hu hrun
      simp only [runSys] at hrun
      injection hrun with h2; rw [← h2]; exact ⟨hu, rfl⟩
  | cons op rest ih =>
      intro u s hops hu hrun
      simp only [runSys] at hrun
      cases hop : sysStep u op with
      | error e => rw [hop] at hrun; exact absurd hrun (by simp)
      | ok u2 =>
          rw [hop] at hrun
          obtain ⟨h2r, h2w⟩ :=
            sysStep_no_wgZero_frame u u2 op (hops op (by simp)) hu hop
          obtain ⟨h3r, h3w⟩ :=
            ih u2 s (fun o ho => hops o (List.mem_cons_of_mem _ ho)) h2r hrun
          exact ⟨h3r, by rw [h3w, h2w]⟩

/-- C8: over any event sequence of one `Wait` call, the watcher performs at
most one dump, and when the one-shot timer fires before the wait has
completed (no successful `wgZero` earlier) it performs exactly one dump —
later events, however many, trigger no further dump, because the
`time.After` channel is never re-armed. -/
theorem single_dump (ops : List SysOp) (w0 : WaitGroup) (s : WaitSys)
    (hrun : runSys (initSys w0) ops = Except.ok s) :
    s.dumps ≤ 1 ∧
    ∀ pre post, ops = pre ++ SysOp.timerFire :: post →
      (∀ op ∈ pre, op ≠ SysOp.wgZero) → s.dumps = 1 := by
  have hinv := runSys_dumpsInv ops (initSys w0) s rfl hrun
  constructor
  · rw [hinv]; split <;> omega
  · intro pre post hsplit hpre
    rw [hsplit, runSys_append] at hrun
    cases hp : runSys (initSys w0) pre with
    | error e => rw [hp] at hrun; exact absurd hrun (by simp)
    | ok s1 =>
        rw [hp] at hrun
        simp only [runSys] at hrun
        cases hf : sysStep s1 SysOp.timerFire with
        | error e => rw [hf] at hrun; exact absurd hrun (by simp)
        | ok s2 =>
            rw [hf] at hrun
            obtain ⟨h1r, h1w⟩ :=
              runSys_no_wgZero_frame pre (initSys w0) s1 hpre rfl hp
            have h1w0 : s1.watcherStopped = false := by rw [h1w]; rfl
            have h2sp : s2.timerSpent = true := by
              simp only [sysStep, h1w0, Bool.false_or] at hf
              by_cases hts : s1.timerSpent = true
              · rw [if_pos hts] at hf
                injection hf with h3; rw [← h3]; exact hts
              · rw [if_neg hts] at hf
                injection hf with h3; rw [← h3]
            have hsf : s.timerSpent = true :=
              runSys_spent_mono post s2 s h2sp hrun
            rw [hinv, if_pos hsf]

theorem single_dump_w :
    runSys (initSys New) [SysOp.timerFire] =
      Except.ok ⟨New, false, true, false, 1⟩ ∧
    (⟨New, false, true, false, 1⟩ : WaitSys).dumps = 1 := by
  refine ⟨rfl, ?_⟩
  exact (single_dump [SysOp.timerFire] New ⟨New, false, true, false, 1⟩ rfl).2
    [] [] rfl (by simp)

theorem sysStep_returned_flip (u u2 : WaitSys) (op : SysOp)
    (hu : u.returned = false) (h2 : u2.returned = true)
    (h : sysStep u op = Except.ok u2) :
    op = SysOp.wgZero ∧ u.ws.wg = 0 := by
  cases op with
  | add k i =>
      simp only [sysStep] at h
      cases hw : WaitGroup.Add u.ws k i with
      | error e => rw [hw] at h; exact absurd h (by simp)
      | ok w2 =>
          rw [hw] at h
          injection h with h3; rw [← h3] at h2; simp [hu] at h2
  | done k =>
      simp only [sysStep] at h
      cases hw : WaitGroup.Done u.ws k with
      | error e => rw [hw] at h; exact absurd h (by simp)
      | ok w2 =>
          rw [hw] at h
          injection h with h3; rw [← h3] at h2; simp [hu] at h2
  | timerFire =>
      simp only [sysStep] at h
      split at h <;> (injection h with h3; rw [← h3] at h2; simp [hu] at h2)
  | wgZero =>
      simp only [sysStep] at h
      split at h
      · next hc => exact ⟨rfl, hc.2⟩
      · injection h with h3; rw [← h3] at h2; simp [hu] at h2
  | watcherDone =>
      simp only [sysStep] at h
      split at h
      · next hc => rw [hu] at hc; simp at hc
      · injection h with h3; rw [← h3] at h2; simp [hu] at h2

theorem runSys_return_origin (ops : List SysOp) :
    ∀ u s : WaitSys, u.returned = false → runSys u ops = Except.ok s →
      s.returned = true →
      ∃ pre suf, ops = pre ++ SysOp.wgZero :: suf ∧
        ∃ s1, runSys u pre = Except.ok s1 ∧ s1.ws.wg = 0 ∧
          s1.returned = false := by
  induction ops with
  | nil =>
      intro u s hu hrun hs
      simp only [runSys] at hrun
      injection hrun with h2
      rw [← h2] at hs
      rw [hu] at hs
      exact absurd hs (by simp)
  | cons op rest ih =>
      intro u s hu hrun hs
      simp only [runSys] at hrun
      cases hop : sysStep u op with
      | error e => rw [hop] at hrun; exact absurd hrun (by simp)
      | ok u2 =>
          rw [hop] at hrun
          by_cases h2 : u2.returned = true
          · obtain ⟨hopz, hwg⟩ := sysStep_returned_flip u u2 op hu h2 hop
            refine ⟨[], rest, ?_, u, rfl, hwg, hu⟩
            rw [hopz]
            rfl
          · have h2f : u2.returned = false := by
              revert h2; cases u2.returned <;> simp
            obtain ⟨pre, suf, hsplit, s1, hpre, hwg0, hret⟩ :=
              ih u2 s h2f hrun hs
            refine ⟨op :: pre, suf, ?_, s1, ?_, hwg0, hret⟩
            · rw [hsplit]; rfl
            · simp only [runSys, hop]
              exact hpre

/-- C9: `Wait` never returns while the counter is positive: whenever a run
of the `Wait` system ends with `Wait` having returned, the return was
enabled by `wg.Wait()` observing a zero counter at that moment; and a run
containing no such `wgZero` event — timer firings included — never makes
`Wait` return, so the timeout alone cannot release or fail the wait. -/
theorem wait_returns_only_at_zero (ops : List SysOp) (w0 : WaitGroup)
    (s : WaitSys) (hrun : runSys (initSys w0) ops = Except.ok s) :
    (s.returned = true →
      ∃ pre suf, ops = pre ++ SysOp.wgZero :: suf ∧
        ∃ s1, runSys (initSys w0) pre = Except.ok s1 ∧
          s1.ws.wg = 0 ∧ s1.returned = false) ∧
    ((∀ op ∈ ops, op ≠ SysOp.wgZero) → s.returned = false) := by
  constructor
  · intro hs
    exact runSys_return_origin ops (initSys w0) s rfl hrun hs
  · intro hops
    exact (runSys_no_wgZero_frame ops (initSys w0) s hops rfl hrun).1

theorem wait_returns_only_at_zero_w :
    ∃ pre suf, [SysOp.wgZero] = pre ++ SysOp.wgZero :: suf ∧
      ∃ s1, runSys (initSys New) pre = Except.ok s1 ∧
        s1.ws.wg = 0 ∧ s1.returned = false :=
  (wait_returns_only_at_zero [SysOp.wgZero] New
    ⟨New, true, false, false, 0⟩ rfl).1 rfl
